import Mathlib

/-!
# Verification of the hyde grouper plugin (`hyde/ext/plugins/grouper.py`)

A shallow embedding of the grouper subsystem: the `Group` tree model, its
traversals (`walk_groups`, `list_resources`, and the two capabilities that get
attached to site nodes), and the `begin_site` lifecycle hook.  Lazy Python
generators are modelled as the finite lists of the elements they yield, in
yield order.  Collaborator types that the plugin consumes (`Node`, `Resource`,
the configuration attribute bags) are modelled by the interface the grouper
reads from them.
-/

namespace Grouper

/-- A site resource.  `rid` stands for object identity (two distinct files may
carry equal metadata); `meta` is the resource's metadata attribute bag,
modelled as an association list from field name to value.  Only string-valued
fields matter to the grouper (it compares a metadata value with a group name
for equality). -/
structure Resource where
  rid : Nat
  meta : List (String × String)
deriving DecidableEq, Repr

/-- Models `getattr(resource.meta, field)`: `none` is the `AttributeError` branch
(the field is absent from the metadata bag). -/
def Resource.metaGet (r : Resource) (field : String) : Option String :=
  (r.meta.find? (fun p => p.1 == field)).map (fun p => p.2)

/-- A site node, by the interface the grouper reads from it: its generic
`walk_resources()` traversal (the list of resources it yields), and the
optional `walk_resources_sorted_by_<sorter>` capabilities, modelled as an
association list from sorter name to the resource list that capability
yields. -/
structure Node where
  resources : List Resource
  sorted : List (String × List Resource)
deriving DecidableEq, Repr

/-- Models `getattr(node, 'walk_resources_sorted_by_' + s)` without the
default: `some rs` when the node exposes the sorted capability named after
sorter `s`, `none` when it does not. -/
def Node.walkResourcesSortedBy (n : Node) (s : String) : Option (List Resource) :=
  (n.sorted.find? (fun p => p.1 == s)).map (fun p => p.2)

/-- A constructed `Group` (grouper.py, class `Group`).  `name` is the group's
resolved name (default `'groups'`), `sorter` its resolved sorter (`none` for
Python `None`), `groups` its child groups in configuration order.  `rootName`
records what `self.root.name` evaluates to for this group: the Python object
holds a reference to the top-most group of its tree and reads that group's
`name` field lazily, which is the tree root's resolved name. -/
inductive Group : Type where
  | mk (name : String) (sorter : Option String) (rootName : String)
       (groups : List Group)

def Group.name : Group → String
  | .mk n _ _ _ => n

def Group.sorter : Group → Option String
  | .mk _ s _ _ => s

def Group.rootName : Group → String
  | .mk _ _ r _ => r

def Group.groups : Group → List Group
  | .mk _ _ _ gs => gs

/-- Structural induction for the nested `Group` tree: to prove `P` of every
group it suffices to prove it of a group from `P` of all its children. -/
theorem Group.groupTreeInduction (P : Group → Prop)
    (h : ∀ n s r gs, (∀ g ∈ gs, P g) → P (.mk n s r gs)) : ∀ g, P g := by
  intro g
  match g with
  | .mk n s r gs =>
    apply h
    intro c hc
    exact Group.groupTreeInduction P h c

mutual

/-- The method `Group.walk_groups` (grouper.py lines 78-85): `yield self`, then for each
child in configuration order, yield every element of the child's own
`walk_groups()`. -/
def Group.walkGroups : Group → List Group
  | .mk n s r gs => .mk n s r gs :: walkGroupsList gs

/-- The inner loop of `walk_groups`: the concatenation of the children's walks
in configuration order. -/
def walkGroupsList : List Group → List Group
  | [] => []
  | g :: gs => g.walkGroups ++ walkGroupsList gs

end

theorem walkGroupsList_eq_flatMap (gs : List Group) :
    walkGroupsList gs = gs.flatMap Group.walkGroups := by
  induction gs with
  | nil => rfl
  | cons g gs ih => simp [walkGroupsList, ih]

/-- The traversal `list_resources` chooses (grouper.py lines 92-96):
`walker = 'walk_resources'`; if `self.sorter` is truthy (present and not the
empty string) then `walker = 'walk_resources_sorted_by_' + self.sorter`;
finally `walker = getattr(node, walker, getattr(node, 'walk_resources'))`, so
a missing sorted capability falls back to the node's generic walk. -/
def Group.walker (g : Group) (node : Node) : List Resource :=
  match g.sorter with
  | none => node.resources
  | some s =>
      if s = "" then node.resources
      else
        match node.walkResourcesSortedBy s with
        | some rs => rs
        | none => node.resources

/-- The method `Group.list_resources` (grouper.py lines 87-103): walk the chosen
traversal; for each resource read `getattr(resource.meta, self.root.name)`,
skipping the resource on `AttributeError`; yield it when the value equals
`self.name`. -/
def Group.listResources (g : Group) (node : Node) : List Resource :=
  (g.walker node).filter (fun r => r.metaGet g.rootName == some g.name)

/-- The injected capability `walk_resources_grouped_by_<name>`
(`Group.walk_resources`, grouper.py lines 53-62): for each group of
`group.walk_groups()`, yield each resource of that group's
`list_resources(node)`. -/
def walkResourcesGroupedBy (g : Group) (node : Node) : List Resource :=
  g.walkGroups.flatMap (fun h => h.listResources node)

/-- The injected capability `walk_<name>_groups` (`Group.walk_groups_in_node`,
grouper.py lines 64-77): for each group `h` of `group.walk_groups()`, iterate
`h.list_resources(node)`; on the first element yield `h` and `break`, so `h`
is emitted exactly when its resource listing is non-empty, and only that first
element is consumed. -/
def walkGroupsInNode (g : Group) (node : Node) : List Group :=
  g.walkGroups.flatMap (fun h =>
    match h.listResources node with
    | [] => []
    | _ :: _ => [h])

/-- A grouping specification, i.e. the configuration attribute bag a `Group`
is constructed from: an optional `name` field, an optional `sorter` field, and
a `groups` field holding the nested child specifications in configuration
order.  Only these three fields are read by the grouper; other descriptive
fields (description, ...) are copied verbatim onto the group and never read,
so they are omitted from the model. -/
inductive Grouping : Type where
  | mk (name : Option String) (sorter : Option String) (groups : List Grouping)

def Grouping.gname : Grouping → Option String
  | .mk n _ _ => n

def Grouping.gsorter : Grouping → Option String
  | .mk _ s _ => s

def Grouping.ggroups : Grouping → List Grouping
  | .mk _ _ gs => gs

/-- Structural induction for the nested `Grouping` tree. -/
theorem Grouping.specTreeInduction (P : Grouping → Prop)
    (h : ∀ n s gs, (∀ c ∈ gs, P c) → P (.mk n s gs)) : ∀ g, P g := by
  intro g
  match g with
  | .mk n s gs =>
    apply h
    intro c hc
    exact Grouping.specTreeInduction P h c

mutual

/-- The constructor `Group.__init__` (grouper.py lines 23-41) together with the attribute
copy of the `Expando` base class and the `groups` special case of
`set_expando` (lines 43-51).  `parent` is `none` for a root construction, and
otherwise carries the two things the code reads from the parent object: its
resolved `sorter` and its `root`'s name.

The body follows the source: `self.sorter = getattr(grouping, 'sorter',
None)`, then `self.sorter = parent.sorter` whenever a parent exists, and the
attribute copy restores the grouping's own `sorter` when the bag contains
one; `self.root = parent.root if parent else self`, so the root name every
descendant reads is the root construction's resolved name; `self.name =
'groups'` is overwritten by the copied `name` field when present; the copied
`groups` field builds one child `Group` per entry with `parent` set to this
instance.

Modelled from the spec: `hyde.model.Expando.__init__` (not under `src/`)
performs the field-by-field attribute copy through `set_expando`; per the
spec, a child group is constructed only after its parent's `sorter` and
`name` are already resolved, so the copy is modelled with the scalar fields
applied before the `groups` field. -/
def build : Grouping → Option (Option String × String) → Group
  | .mk nm so gs, parent =>
    let n := nm.getD "groups"
    let inherited : Option String :=
      match parent with
      | none => so
      | some p => p.1
    let sr : Option String :=
      match so with
      | some v => some v
      | none => inherited
    let rn : String :=
      match parent with
      | none => n
      | some p => p.2
    .mk n sr rn (buildList gs (some (sr, rn)))

/-- The `groups` branch of `set_expando`: one child `Group` per nested
specification, in configuration order, each with the constructing group as
parent. -/
def buildList : List Grouping → Option (Option String × String) → List Group
  | [], _ => []
  | c :: cs, parent => build c parent :: buildList cs parent

end

mutual

/-- Number of groups in a constructed tree: the group itself plus all
descendants. -/
def Group.size : Group → Nat
  | .mk _ _ _ gs => 1 + sizeList gs

def sizeList : List Group → Nat
  | [] => 0
  | g :: gs => g.size + sizeList gs

end

mutual

/-- Number of configured groups in a grouping specification: root plus all
nested entries. -/
def Grouping.gsize : Grouping → Nat
  | .mk _ _ gs => 1 + gsizeList gs

def gsizeList : List Grouping → Nat
  | [] => 0
  | c :: cs => c.gsize + gsizeList cs

end

/-- The group sitting at a tree position: `nodeAt g p` descends from `g`
through the child indices of `p`.  Positions stand for Python object
identity, and dropping the last index of a position is following the
`parent` reference. -/
def nodeAt : Group → List Nat → Option Group
  | g, [] => some g
  | g, i :: p =>
    match g.groups[i]? with
    | some c => nodeAt c p
    | none => none

/-- The chain of grouping specifications from the root specification down to
the one at position `p`, root first. -/
def specsAlong : Grouping → List Nat → Option (List Grouping)
  | spec, [] => some [spec]
  | spec, i :: p =>
    (spec.ggroups[i]?).bind (fun c => (specsAlong c p).map (fun chain => spec :: chain))

mutual

/-- The walk `walk_groups` instrumented with tree positions: each yielded group is
paired with its position relative to the traversal root, whose position is
`p`. -/
def walkGroupsP : List Nat → Group → List (List Nat × Group)
  | p, .mk n s r gs => (p, .mk n s r gs) :: walkGroupsPList p 0 gs

def walkGroupsPList : List Nat → Nat → List Group → List (List Nat × Group)
  | _, _, [] => []
  | p, i, g :: gs => walkGroupsP (p ++ [i]) g ++ walkGroupsPList p (i + 1) gs

end

mutual

/-- The `add_method` registrations a `Group` construction performs on the
`Node` type, in execution order.  Each group's own two registrations
(`walk_<name>_groups` first, `walk_resources_grouped_by_<name>` second,
grouper.py lines 34-41) run at the end of its `__init__`, after its children
were constructed during the attribute copy, so every child subtree's
registrations precede the parent's own.  A registration is recorded as the
method name paired with the group the capability was bound to (the keyword
argument `group=self`). -/
def regs : Group → List (String × Group)
  | .mk n s r gs =>
    regsList gs ++
      [("walk_" ++ n ++ "_groups", .mk n s r gs),
       ("walk_resources_grouped_by_" ++ n, .mk n s r gs)]

/-- Registrations of a list of sibling subtrees, in configuration order. -/
def regsList : List Group → List (String × Group)
  | [] => []
  | g :: gs => regs g ++ regsList gs

end

/-- Assignment into a string-keyed mapping (a Python class attribute table or
dict): replace the value of an existing key in place, append a fresh key. -/
def assocSet {α : Type} : List (String × α) → String → α → List (String × α)
  | [], k, v => [(k, v)]
  | (k', v') :: t, k, v =>
    if k' = k then (k, v) :: t else (k', v') :: assocSet t k v

/-- Lookup in a string-keyed mapping. -/
def assocGet {α : Type} : List (String × α) → String → Option α
  | [], _ => none
  | pr :: t, k => if pr.1 = k then some pr.2 else assocGet t k

/-- Modelled from the spec: `hyde.util.add_method` (not under `src/`)
attaches each registered capability to the shared `Node` type, a second
registration under the same method name overwriting the first for all nodes.
The capability table after a sequence of registrations is their left fold
over assignment. -/
def applyRegs {α : Type} (t : List (String × α)) (rs : List (String × α)) :
    List (String × α) :=
  rs.foldl (fun acc p => assocSet acc p.1 p.2) t

/-- The site state `begin_site` touches, modelled from the spec (the host
`hyde.site` / `hyde.plugin` framework is not under `src/`): `configGrouper`
is the `grouper` section of the site configuration as an association from
grouping name to grouping specification in iteration order (`none` when the
configuration has no `grouper` attribute), and `grouper` is the site-wide
registry from grouping name to root `Group` (`none` when the site has no
`grouper` attribute yet). -/
structure Site where
  configGrouper : Option (List (String × Grouping))
  grouper : Option (List (String × Group))

/-- The assignment `grouping.name = name` (grouper.py line 152): set or overwrite the
specification's `name` field with the configuration key. -/
def Grouping.setName : Grouping → String → Grouping
  | .mk _ so gs, k => .mk (some k) so gs

/-- The hook `GrouperPlugin.begin_site` (grouper.py lines 141-153): return unchanged
when the configuration has no `grouper` attribute; otherwise start from the
existing registry (an empty one when the site has none yet) and, for each
top-level configuration entry in order, set the specification's `name` to the
key and store a freshly constructed root `Group` under that key. -/
def beginSite (s : Site) : Site :=
  match s.configGrouper with
  | none => s
  | some entries =>
    let reg0 : List (String × Group) :=
      match s.grouper with
      | none => []
      | some t => t
    { s with
      grouper := some (entries.foldl
        (fun acc p => assocSet acc p.1 (build (p.2.setName p.1) none)) reg0) }

/-! ## Basic lemmas -/

@[simp]
theorem Group.name_mk (n : String) (s : Option String) (r : String) (gs : List Group) :
    (Group.mk n s r gs).name = n := rfl

@[simp]
theorem Group.sorter_mk (n : String) (s : Option String) (r : String) (gs : List Group) :
    (Group.mk n s r gs).sorter = s := rfl

@[simp]
theorem Group.rootName_mk (n : String) (s : Option String) (r : String) (gs : List Group) :
    (Group.mk n s r gs).rootName = r := rfl

@[simp]
theorem Group.groups_mk (n : String) (s : Option String) (r : String) (gs : List Group) :
    (Group.mk n s r gs).groups = gs := rfl

theorem Group.walkGroups_mk (n : String) (s : Option String) (r : String) (gs : List Group) :
    (Group.mk n s r gs).walkGroups = Group.mk n s r gs :: walkGroupsList gs := rfl

/-- The walk `walk_groups` yields the group itself first, then the children's subtree
walks in configuration order. -/
theorem walkGroups_eq_self_cons (g : Group) :
    g.walkGroups = g :: walkGroupsList g.groups := by
  cases g
  rfl

theorem mem_walkGroups_self (g : Group) : g ∈ g.walkGroups := by
  rw [walkGroups_eq_self_cons]
  exact List.mem_cons_self g (walkGroupsList g.groups)

theorem mem_walkGroupsList (h : Group) (gs : List Group) :
    h ∈ walkGroupsList gs ↔ ∃ c ∈ gs, h ∈ c.walkGroups := by
  rw [walkGroupsList_eq_flatMap]
  exact List.mem_flatMap

/-! ## C1: membership in `list_resources` -/

/-- C1.  For every node and every group `g`, a resource `r` is yielded by
`g.list_resources(node)` if and only if `r` is produced by the chosen node
traversal (`g.walker node`, i.e. `node.walk_resources()` or the resolved
sorted variant) and `r.meta.<root.name>` equals `g.name`; a resource whose
metadata lacks the field named after the root (so `metaGet` is `none`, the
`AttributeError` branch) never satisfies the right-hand side and is silently
skipped rather than raising an error. -/
theorem list_resources_mem_iff (g : Group) (node : Node) (r : Resource) :
    r ∈ g.listResources node ↔
      r ∈ g.walker node ∧ r.metaGet g.rootName = some g.name := by
  unfold Group.listResources
  rw [List.mem_filter]
  simp

/-! ## C2: the filtered group walk -/

theorem flatMap_first_match_eq_filter (node : Node) (l : List Group) :
    (l.flatMap (fun h =>
      match h.listResources node with
      | [] => []
      | _ :: _ => [h])) =
    l.filter (fun h => !(h.listResources node).isEmpty) := by
  induction l with
  | nil => rfl
  | cons g l ih =>
    rw [List.flatMap_cons, List.filter_cons, ih]
    cases hg : g.listResources node <;> simp [hg]

/-- C2.  The injected `walk_<name>_groups(node)` yields exactly those groups
of the depth-first pre-order walk starting at the group the capability was
registered with whose `list_resources(node)` is non-empty — i.e. it equals
the non-emptiness filter of `walk_groups()`, so each qualifying group appears
exactly once per occurrence in the walk and in pre-order position.  The
filter is existence-based on the group's own direct matches (membership is
equivalent to `list_resources ≠ []`), not recursive over descendants, and the
source consumes only the first matching resource (the translation emits `h`
from the first cons cell of its listing and discards the rest). -/
theorem walk_groups_in_node_eq_filter (g : Group) (node : Node) :
    walkGroupsInNode g node =
      g.walkGroups.filter (fun h => !(h.listResources node).isEmpty) ∧
    ∀ h : Group, h ∈ walkGroupsInNode g node ↔
      h ∈ g.walkGroups ∧ h.listResources node ≠ [] := by
  constructor
  · exact flatMap_first_match_eq_filter node g.walkGroups
  · intro h
    rw [walkGroupsInNode, flatMap_first_match_eq_filter node g.walkGroups,
      List.mem_filter]
    simp [List.isEmpty_iff]

/-! ## C3: the grouped resource walk -/

/-- C3.  The injected `walk_resources_grouped_by_<name>(node)` is exactly the
concatenation, over each group `h` of the unfiltered depth-first pre-order
walk `walk_groups()`, of `h.list_resources(node)`, preserving
group-then-resource order; a resource is yielded precisely when some walked
group lists it. -/
theorem walk_resources_grouped_eq_concat (g : Group) (node : Node) :
    walkResourcesGroupedBy g node =
      (g.walkGroups.map (fun h => h.listResources node)).flatten ∧
    ∀ r : Resource, r ∈ walkResourcesGroupedBy g node ↔
      ∃ h ∈ g.walkGroups, r ∈ h.listResources node := by
  constructor
  · rw [walkResourcesGroupedBy, List.flatMap_def]
  · intro r
    rw [walkResourcesGroupedBy]
    exact List.mem_flatMap

/-! ## C8: the worked `topics` example -/

/-- The resource with `meta.topics = "a"` of the spec's example. -/
def exampleResourceA : Resource := ⟨1, [("topics", "a")]⟩

/-- The resource with `meta.topics = "b"` of the spec's example. -/
def exampleResourceB : Resource := ⟨2, [("topics", "b")]⟩

/-- A node holding exactly the two example resources. -/
def exampleNode : Node := ⟨[exampleResourceA, exampleResourceB], []⟩

/-- The configuration `grouper: { topics: { groups: [{name: a},{name: b}] } }`:
the grouping specification stored under the key `topics`. -/
def topicsSpec : Grouping :=
  .mk none none [.mk (some "a") none [], .mk (some "b") none []]

/-- The root `Group` that `begin_site` constructs for the `topics` entry
(after setting the specification's name to the key). -/
def topicsRoot : Group := build (topicsSpec.setName "topics") none

/-- C8.  On the example configuration and node:
`node.walk_resources_grouped_by_topics()` yields exactly the two resources in
group order (the `a` resource then the `b` resource);
`node.walk_topics_groups()` yields exactly the groups named `a` and `b` in
that order; and the root group — named `topics`, which no resource's
`meta.topics` equals — lists no resources of its own, which is why the
filtered walk excludes it. -/
theorem topics_example :
    walkResourcesGroupedBy topicsRoot exampleNode =
      [exampleResourceA, exampleResourceB] ∧
    walkGroupsInNode topicsRoot exampleNode =
      [Group.mk "a" none "topics" [], Group.mk "b" none "topics" []] ∧
    topicsRoot.name = "topics" ∧
    topicsRoot.listResources exampleNode = [] := by
  refine ⟨rfl, rfl, rfl, rfl⟩

/-! ## C4: `walk_groups` is a complete pre-order traversal -/

theorem walkGroupsList_length (gs : List Group)
    (ih : ∀ c ∈ gs, c.walkGroups.length = c.size) :
    (walkGroupsList gs).length = sizeList gs := by
  induction gs with
  | nil => rfl
  | cons g gs ihl =>
    simp only [walkGroupsList, sizeList, List.length_append]
    rw [ih g (List.mem_cons_self _ _),
      ihl (fun c hc => ih c (List.mem_cons_of_mem _ hc))]

/-- The walk `walk_groups` yields as many groups as the tree holds. -/
theorem walkGroups_length : ∀ g : Group, g.walkGroups.length = g.size := by
  intro g
  induction g using Group.groupTreeInduction with
  | h n s r gs ih =>
    simp only [Group.walkGroups, Group.size, List.length_cons]
    rw [walkGroupsList_length gs ih]
    omega

theorem buildList_size (gs : List Grouping)
    (ih : ∀ c ∈ gs, ∀ parent, (build c parent).size = c.gsize) :
    ∀ parent, sizeList (buildList gs parent) = gsizeList gs := by
  induction gs with
  | nil => intro parent; rfl
  | cons c cs ihl =>
    intro parent
    simp only [buildList, sizeList, gsizeList]
    rw [ih c (List.mem_cons_self _ _) parent,
      ihl (fun d hd => ih d (List.mem_cons_of_mem _ hd)) parent]

/-- Construction produces exactly one `Group` per configured entry: the size
of the built tree is the number of configured groups (root plus all
nested). -/
theorem build_size : ∀ (spec : Grouping) (parent : Option (Option String × String)),
    (build spec parent).size = spec.gsize := by
  intro spec
  induction spec using Grouping.specTreeInduction with
  | h n s gs ih =>
    intro parent
    simp only [build, Group.size, Grouping.gsize]
    rw [buildList_size gs ih]

theorem walkGroupsPList_map_snd (gs : List Group)
    (ih : ∀ c ∈ gs, ∀ q, (walkGroupsP q c).map Prod.snd = c.walkGroups) :
    ∀ p i, (walkGroupsPList p i gs).map Prod.snd = walkGroupsList gs := by
  induction gs with
  | nil => intro p i; rfl
  | cons g gs ihl =>
    intro p i
    simp only [walkGroupsPList, walkGroupsList, List.map_append]
    rw [ih g (List.mem_cons_self _ _) (p ++ [i]),
      ihl (fun c hc => ih c (List.mem_cons_of_mem _ hc)) p (i + 1)]

/-- The position-instrumented walk yields the same groups, in the same order,
as `walk_groups`. -/
theorem walkGroupsP_map_snd : ∀ (g : Group) (p : List Nat),
    (walkGroupsP p g).map Prod.snd = g.walkGroups := by
  intro g
  induction g using Group.groupTreeInduction with
  | h n s r gs ih =>
    intro p
    simp only [walkGroupsP, Group.walkGroups, List.map_cons]
    rw [walkGroupsPList_map_snd gs ih p 0]

theorem walkGroupsPList_shape_aux (gs : List Group)
    (ih : ∀ c ∈ gs, ∀ (p : List Nat) (pr : List Nat × Group),
      pr ∈ walkGroupsP p c → ∃ t, pr.1 = p ++ t ∧ nodeAt c t = some pr.2) :
    ∀ (p : List Nat) (i : Nat) (pr : List Nat × Group),
      pr ∈ walkGroupsPList p i gs →
      ∃ j c t, gs[j]? = some c ∧ pr.1 = p ++ (i + j) :: t ∧
        nodeAt c t = some pr.2 := by
  induction gs with
  | nil =>
    intro p i pr hm
    simp [walkGroupsPList] at hm
  | cons g gs ihl =>
    intro p i pr hm
    simp only [walkGroupsPList] at hm
    rw [List.mem_append] at hm
    rcases hm with hm | hm
    · rcases ih g (List.mem_cons_self _ _) (p ++ [i]) pr hm with ⟨t, hq, hn⟩
      refine ⟨0, g, t, by simp, ?_, hn⟩
      rw [hq, List.append_assoc]
      simp
    · rcases ihl (fun c hc => ih c (List.mem_cons_of_mem _ hc)) p (i + 1) pr hm
        with ⟨j, c, t, hg, hq, hn⟩
      refine ⟨j + 1, c, t, by simpa using hg, ?_, hn⟩
      have e : i + 1 + j = i + (j + 1) := by omega
      rw [e] at hq
      exact hq

/-- Every element the instrumented walk yields sits at a genuine tree
position extending the traversal root's position: the walk visits only nodes
of the tree, each at its own position. -/
theorem walkGroupsP_shape : ∀ (g : Group) (p : List Nat) (pr : List Nat × Group),
    pr ∈ walkGroupsP p g → ∃ t, pr.1 = p ++ t ∧ nodeAt g t = some pr.2 := by
  intro g
  induction g using Group.groupTreeInduction with
  | h n s r gs ih =>
    intro p pr hm
    simp only [walkGroupsP] at hm
    rw [List.mem_cons] at hm
    rcases hm with hm | hm
    · refine ⟨[], ?_, ?_⟩
      · rw [hm]
        simp
      · rw [hm]
        rfl
    · rcases walkGroupsPList_shape_aux gs ih p 0 pr hm with ⟨j, c, t, hg, hq, hn⟩
      refine ⟨j :: t, by simpa using hq, ?_⟩
      show nodeAt (Group.mk n s r gs) (j :: t) = some pr.2
      simp only [nodeAt, Group.groups_mk]
      rw [hg]
      exact hn

theorem walkGroupsPList_shape (gs : List Group) (p : List Nat) (i : Nat)
    (pr : List Nat × Group) (hm : pr ∈ walkGroupsPList p i gs) :
    ∃ j c t, gs[j]? = some c ∧ pr.1 = p ++ (i + j) :: t ∧
      nodeAt c t = some pr.2 :=
  walkGroupsPList_shape_aux gs (fun c _ => walkGroupsP_shape c) p i pr hm

/-- Relation `ancPath q p`: position `q` is the position of an ancestor (or the node
itself) of the node at position `p` — i.e. `q` is an initial segment of `p`.
Dropping trailing indices is following `parent` references. -/
def ancPath (q p : List Nat) : Prop := q = p.take q.length

theorem ancPath_length_le {q p : List Nat} (h : ancPath q p) :
    q.length ≤ p.length := by
  have hl := congrArg List.length h
  rw [List.length_take] at hl
  omega

theorem getElem_append_cons (p : List Nat) (x : Nat) (t : List Nat) :
    (p ++ x :: t)[p.length]? = some x := by
  induction p with
  | nil => simp
  | cons a p ih => simpa using ih

theorem pairwise_walkGroupsPList (gs : List Group)
    (ihPair : ∀ c ∈ gs, ∀ p,
      List.Pairwise (fun a b => ¬ ancPath b.1 a.1) (walkGroupsP p c)) :
    ∀ p i, List.Pairwise (fun a b => ¬ ancPath b.1 a.1) (walkGroupsPList p i gs) := by
  induction gs with
  | nil => intro p i; simp [walkGroupsPList]
  | cons g gs ihl =>
    intro p i
    simp only [walkGroupsPList]
    rw [List.pairwise_append]
    refine ⟨ihPair g (List.mem_cons_self _ _) (p ++ [i]),
      ihl (fun c hc => ihPair c (List.mem_cons_of_mem _ hc)) p (i + 1), ?_⟩
    intro a ha b hb hanc
    obtain ⟨ta, hqa, -⟩ := walkGroupsP_shape g (p ++ [i]) a ha
    obtain ⟨j, c, tb, -, hqb, -⟩ := walkGroupsPList_shape gs p (i + 1) b hb
    have hqa' : a.1 = p ++ i :: ta := by
      rw [hqa, List.append_assoc]
      simp
    have hblen : b.1.length = p.length + 1 + tb.length := by
      rw [hqb]
      simp only [List.length_append, List.length_cons]
      omega
    have hlt : p.length < b.1.length := by omega
    have hb_at : b.1[p.length]? = some (i + 1 + j) := by
      rw [hqb]
      exact getElem_append_cons p (i + 1 + j) tb
    have ha_at : a.1[p.length]? = some i := by
      rw [hqa']
      exact getElem_append_cons p i ta
    have htake := congrArg (fun l => l[p.length]?) hanc
    simp only at htake
    rw [List.getElem?_take, if_pos hlt, ha_at, hb_at] at htake
    have : i + 1 + j = i := Option.some.inj htake
    omega

/-- The instrumented walk never yields the position of an ancestor after one
of its descendants, and in particular never yields the same position twice
(`ancPath` is reflexive): parents come before all their descendants, and
every tree position appears at most once. -/
theorem walkGroupsP_pairwise : ∀ (g : Group) (p : List Nat),
    List.Pairwise (fun a b => ¬ ancPath b.1 a.1) (walkGroupsP p g) := by
  intro g
  induction g using Group.groupTreeInduction with
  | h n s r gs ih =>
    intro p
    simp only [walkGroupsP]
    rw [List.pairwise_cons]
    constructor
    · intro b hb hanc
      obtain ⟨j, c, tb, -, hqb, -⟩ := walkGroupsPList_shape gs p 0 b hb
      have hle := ancPath_length_le hanc
      rw [hqb] at hle
      simp only [List.length_append, List.length_cons] at hle
      omega
    · exact pairwise_walkGroupsPList gs ih p 0

/-- C4.  `walk_groups()` is a complete depth-first pre-order enumeration of
the configured tree: it yields the group itself first and then each child's
full subtree in configuration order (first conjunct); the
position-instrumented walk projects onto it (second conjunct) while visiting
only genuine tree positions (third conjunct) and never repeating a position
nor yielding a position after any of its descendants (fourth conjunct,
`ancPath` being reflexive) — so each group of the tree is visited exactly
once and a parent is visited before all its descendants; the number of
elements yielded is the tree's size, which for a constructed tree equals the
total number of configured groups, root plus all nested (last two
conjuncts). -/
theorem walk_groups_preorder (g : Group) (spec : Grouping)
    (parent : Option (Option String × String)) :
    (g.walkGroups = g :: walkGroupsList g.groups) ∧
    ((walkGroupsP [] g).map Prod.snd = g.walkGroups) ∧
    (∀ pr ∈ walkGroupsP [] g, nodeAt g pr.1 = some pr.2) ∧
    List.Pairwise (fun a b => ¬ ancPath b.1 a.1) (walkGroupsP [] g) ∧
    g.walkGroups.length = g.size ∧
    (build spec parent).walkGroups.length = spec.gsize := by
  refine ⟨walkGroups_eq_self_cons g, walkGroupsP_map_snd g [], ?_,
    walkGroupsP_pairwise g [], walkGroups_length g, ?_⟩
  · intro pr hm
    obtain ⟨t, hq, hn⟩ := walkGroupsP_shape g [] pr hm
    rw [hq]
    simpa using hn
  · rw [walkGroups_length, build_size]

/-! ## C5: sorter resolution -/

/-- What a construction inherits as sorter: the parent's resolved sorter when
a parent exists, otherwise the grouping's own sorter (the no-parent branch of
`self.sorter = parent.sorter` leaves the `getattr(grouping, 'sorter', None)`
value in place). -/
def buildInherited (spec : Grouping) : Option (Option String × String) → Option String
  | none => spec.gsorter
  | some pr => pr.1

/-- The nearest-ancestor sorter of a root-to-node chain of grouping
specifications, as the spec words it: the node's own sorter when it
specifies one, otherwise the closest ancestor's, scanning upward. -/
def nearestSorter : List Grouping → Option String
  | [] => none
  | c :: rest =>
    match nearestSorter rest with
    | some s => some s
    | none => c.gsorter

theorem build_sorter (nm so : Option String) (gs : List Grouping)
    (parent : Option (Option String × String)) :
    (build (.mk nm so gs) parent).sorter =
      match so with
      | some v => some v
      | none => buildInherited (.mk nm so gs) parent := rfl

theorem nodeAt_cons (g : Group) (i : Nat) (p : List Nat) :
    nodeAt g (i :: p) =
      match g.groups[i]? with
      | some c => nodeAt c p
      | none => none := rfl

theorem buildList_getElem (gs : List Grouping)
    (parent : Option (Option String × String)) :
    ∀ i : Nat, (buildList gs parent)[i]? =
      (gs[i]?).map (fun c => build c parent) := by
  induction gs with
  | nil => intro i; simp [buildList]
  | cons c cs ih =>
    intro i
    cases i with
    | zero => simp [buildList]
    | succ j => simpa [buildList] using ih j

theorem build_groups_getElem (nm so : Option String) (gs : List Grouping)
    (parent : Option (Option String × String)) (i : Nat) :
    (build (.mk nm so gs) parent).groups[i]? =
      (gs[i]?).map (fun c => build c
        (some ((build (.mk nm so gs) parent).sorter,
               (build (.mk nm so gs) parent).rootName))) := by
  have hg : (build (.mk nm so gs) parent).groups =
      buildList gs (some ((build (.mk nm so gs) parent).sorter,
                          (build (.mk nm so gs) parent).rootName)) := rfl
  rw [hg, buildList_getElem]

/-- The resolved sorter of the node at position `p` of a constructed tree is
the nearest sorter along the specification chain, falling back to what the
construction inherited. -/
theorem build_sorter_at : ∀ (p : List Nat) (spec : Grouping)
    (parent : Option (Option String × String)) (h : Group) (chain : List Grouping),
    nodeAt (build spec parent) p = some h → specsAlong spec p = some chain →
    h.sorter = (nearestSorter chain).orElse (fun _ => buildInherited spec parent) := by
  intro p
  induction p with
  | nil =>
    intro spec parent h chain hn hc
    simp only [nodeAt] at hn
    simp only [specsAlong] at hc
    obtain rfl := Option.some.inj hn
    obtain rfl := Option.some.inj hc
    cases spec with
    | mk nm so gs =>
      rw [build_sorter]
      cases hns : nearestSorter [Grouping.mk nm so gs] with
      | none =>
        simp only [nearestSorter, Grouping.gsorter] at hns
        cases so with
        | none => simp [Option.orElse, hns]
        | some v => simp at hns
      | some v =>
        simp only [nearestSorter, Grouping.gsorter] at hns
        cases so with
        | none => simp at hns
        | some w =>
          obtain rfl := Option.some.inj hns
          simp [Option.orElse]
  | cons i p ih =>
    intro spec parent h chain hn hc
    cases spec with
    | mk nm so gs =>
      simp only [specsAlong, Grouping.ggroups] at hc
      cases hg : gs[i]? with
      | none => rw [hg] at hc; simp at hc
      | some c =>
        rw [hg, Option.some_bind] at hc
        cases hsc : specsAlong c p with
        | none => rw [hsc] at hc; simp at hc
        | some chain' =>
          rw [hsc] at hc
          simp only [Option.map_some'] at hc
          obtain rfl := Option.some.inj hc
          rw [nodeAt_cons, build_groups_getElem, hg] at hn
          simp only [Option.map_some'] at hn
          have hstep := ih c
            (some ((build (.mk nm so gs) parent).sorter,
                   (build (.mk nm so gs) parent).rootName)) h chain' hn hsc
          rw [hstep]
          simp only [buildInherited, nearestSorter, build_sorter, Grouping.gsorter]
          cases hns : nearestSorter chain' with
          | some s => simp [Option.orElse]
          | none =>
            cases so with
            | some v => simp [Option.orElse]
            | none => simp [Option.orElse]

theorem specsAlong_head (spec : Grouping) (p : List Nat) (chain : List Grouping)
    (hc : specsAlong spec p = some chain) : ∃ rest, chain = spec :: rest := by
  cases p with
  | nil =>
    simp only [specsAlong] at hc
    exact ⟨[], (Option.some.inj hc).symm⟩
  | cons i p =>
    simp only [specsAlong] at hc
    cases hg : spec.ggroups[i]? with
    | none => rw [hg] at hc; simp at hc
    | some c =>
      rw [hg, Option.some_bind] at hc
      cases hsc : specsAlong c p with
      | none => rw [hsc] at hc; simp at hc
      | some chain' =>
        rw [hsc] at hc
        simp only [Option.map_some'] at hc
        exact ⟨chain', (Option.some.inj hc).symm⟩

theorem nearestSorter_absorb (spec : Grouping) (rest : List Grouping) :
    (nearestSorter (spec :: rest)).orElse (fun _ => spec.gsorter) =
      nearestSorter (spec :: rest) := by
  simp only [nearestSorter]
  cases hns : nearestSorter rest with
  | some s => simp [Option.orElse]
  | none => cases spec.gsorter <;> simp [Option.orElse]

/-- C5.  For every constructed group — the one at position `p` of the tree
built from `spec`, whose root-to-node specification chain is `chain` — the
resolved sorter is the grouping's own sorter when it specifies one, and
otherwise the resolved sorter of the nearest ancestor that has one
(`nearestSorter` scans the chain node-first, then upward); in particular the
parent's resolved sorter wins only when the grouping itself specifies none,
and a sibling's explicit sorter cannot leak in, since the chain of a node
never contains a sibling. -/
theorem sorter_resolution (spec : Grouping) (p : List Nat) (h : Group)
    (chain : List Grouping)
    (hn : nodeAt (build spec none) p = some h)
    (hc : specsAlong spec p = some chain) :
    h.sorter = nearestSorter chain := by
  have hgen := build_sorter_at p spec none h chain hn hc
  obtain ⟨rest, rfl⟩ := specsAlong_head spec p chain hc
  rw [hgen]
  simpa only [buildInherited] using nearestSorter_absorb spec rest

/-! ## C6: traversal selection in `list_resources` -/

/-- C6.  `list_resources` filters exactly the traversal `walker` chooses
(first conjunct), and the choice behaves as specified: with a resolved
non-empty sorter it is the node's `walk_resources_sorted_by_<sorter>`
capability when the node exposes one, and the node's generic `walk_resources`
otherwise — falling back rather than raising; with no resolved sorter (Python
`None` or the falsy empty string) it is always the generic
`walk_resources`. -/
theorem walker_selection (g : Group) (node : Node) (s : String) :
    (g.listResources node =
      (g.walker node).filter (fun r => r.metaGet g.rootName == some g.name)) ∧
    (∀ rs, g.sorter = some s → s ≠ "" →
      node.walkResourcesSortedBy s = some rs → g.walker node = rs) ∧
    (g.sorter = some s → s ≠ "" →
      node.walkResourcesSortedBy s = none → g.walker node = node.resources) ∧
    (g.sorter = none → g.walker node = node.resources) ∧
    (g.sorter = some "" → g.walker node = node.resources) := by
  refine ⟨rfl, ?_, ?_, ?_, ?_⟩
  · intro rs hs hne hcap
    simp [Group.walker, hs, hne, hcap]
  · intro hs hne hcap
    simp [Group.walker, hs, hne, hcap]
  · intro hs
    simp [Group.walker, hs]
  · intro hs
    simp [Group.walker, hs]

/-! ## C9: parent and root references -/

/-- A child construction's `root` reference is the parent's, so the root
name it reads is the one the construction context carries. -/
theorem build_rootName_child (c : Grouping) (ps : Option String) (rn : String) :
    (build c (some (ps, rn))).rootName = rn := by
  cases c
  rfl

theorem build_rootName_at : ∀ (p : List Nat) (spec : Grouping)
    (parent : Option (Option String × String)) (h : Group),
    nodeAt (build spec parent) p = some h →
    h.rootName = (build spec parent).rootName := by
  intro p
  induction p with
  | nil =>
    intro spec parent h hn
    simp only [nodeAt] at hn
    obtain rfl := Option.some.inj hn
    rfl
  | cons i p ih =>
    intro spec parent h hn
    cases spec with
    | mk nm so gs =>
      rw [nodeAt_cons, build_groups_getElem] at hn
      cases hg : gs[i]? with
      | none => rw [hg] at hn; simp at hn
      | some c =>
        rw [hg] at hn
        simp only [Option.map_some'] at hn
        rw [ih c _ h hn, build_rootName_child]

/-- A root construction's `root` reference is itself, so the root name it
reads is its own resolved name. -/
theorem build_root_rootName (spec : Grouping) :
    (build spec none).rootName = (build spec none).name := by
  cases spec
  rfl

theorem nodeAt_append : ∀ (p q : List Nat) (g : Group),
    nodeAt g (p ++ q) = (nodeAt g p).bind (fun h => nodeAt h q) := by
  intro p
  induction p with
  | nil => intro q g; rfl
  | cons i p ih =>
    intro q g
    rw [List.cons_append, nodeAt_cons, nodeAt_cons]
    cases hg : g.groups[i]? with
    | none => rfl
    | some c => exact ih q c

/-- C9.  In every constructed tree: the empty position is the root group
itself; every group of the tree reads the tree's root name — the top-most
group's resolved name — as the metadata field for matching; the group at a
child position `p ++ [i]` is literally the `i`-th entry of the `groups` list
of the group at `p` (a full `Group` instance whose constructing parent is the
group at `p`); and from any valid position every `take`-truncation — i.e.
every iterate of following the `parent` reference, down to the root at
`[]` — is again a valid position, so parent links from any descendant reach
the root. -/
theorem parent_root_invariant (spec : Grouping) (p : List Nat) (i : Nat) :
    nodeAt (build spec none) [] = some (build spec none) ∧
    (∀ h, nodeAt (build spec none) p = some h →
      h.rootName = (build spec none).name) ∧
    (∀ h', nodeAt (build spec none) (p ++ [i]) = some h' →
      ∃ hp, nodeAt (build spec none) p = some hp ∧
        hp.groups[i]? = some h' ∧ h' ∈ hp.groups) ∧
    (∀ h, nodeAt (build spec none) p = some h →
      ∀ n : Nat, ∃ a, nodeAt (build spec none) (p.take n) = some a) := by
  refine ⟨rfl, ?_, ?_, ?_⟩
  · intro h hn
    rw [build_rootName_at p spec none h hn, build_root_rootName]
  · intro h' hn
    rw [nodeAt_append] at hn
    cases hp : nodeAt (build spec none) p with
    | none => rw [hp] at hn; simp at hn
    | some a =>
      rw [hp, Option.some_bind] at hn
      rw [nodeAt_cons] at hn
      cases hgi : a.groups[i]? with
      | none => rw [hgi] at hn; simp at hn
      | some c =>
        rw [hgi] at hn
        have hn' : some c = some h' := hn
        obtain rfl := Option.some.inj hn'
        exact ⟨a, rfl, hgi, List.getElem?_mem hgi⟩
  · intro h hn n
    have hsplit : p = p.take n ++ p.drop n := (List.take_append_drop n p).symm
    rw [hsplit, nodeAt_append] at hn
    cases hq : nodeAt (build spec none) (p.take n) with
    | none => rw [hq] at hn; simp at hn
    | some a => exact ⟨a, rfl⟩

/-! ## C7 and C10: registry semantics -/

/-- The value the last assignment with key `k` in a registration sequence
carries, when any. -/
def lastAssoc {α : Type} : List (String × α) → String → Option α
  | [], _ => none
  | pr :: rest, k =>
    match lastAssoc rest k with
    | some v => some v
    | none => if pr.1 = k then some pr.2 else none

theorem assocGet_assocSet_self {α : Type} (t : List (String × α)) (k : String)
    (v : α) :
    assocGet (assocSet t k v) k = some v := by
  induction t with
  | nil => simp [assocSet, assocGet]
  | cons pr t ih =>
    simp only [assocSet]
    by_cases h : pr.1 = k
    · rw [if_pos h]
      simp [assocGet]
    · rw [if_neg h]
      simp [assocGet, h, ih]

theorem assocGet_assocSet_ne {α : Type} (t : List (String × α)) (k' k : String)
    (v : α) (h : k' ≠ k) :
    assocGet (assocSet t k' v) k = assocGet t k := by
  induction t with
  | nil => simp [assocSet, assocGet, h]
  | cons pr t ih =>
    simp only [assocSet]
    by_cases hp : pr.1 = k'
    · have hpk : pr.1 ≠ k := by rw [hp]; exact h
      rw [if_pos hp]
      simp [assocGet, h, hpk, hp]
    · rw [if_neg hp]
      simp [assocGet, ih]

/-- Looking a method name up after a sequence of registrations returns the
last registration with that name, falling back to the prior table: a later
registration with an equal name silently replaces an earlier one. -/
theorem assocGet_applyRegs {α : Type} :
    ∀ (rs t : List (String × α)) (k : String),
    assocGet (applyRegs t rs) k =
      (lastAssoc rs k).orElse (fun _ => assocGet t k) := by
  intro rs
  induction rs with
  | nil => intro t k; rfl
  | cons pr rs ih =>
    intro t k
    have happ : applyRegs t (pr :: rs) = applyRegs (assocSet t pr.1 pr.2) rs := rfl
    rw [happ, ih]
    cases hl : lastAssoc rs k with
    | some v => simp [lastAssoc, hl, Option.orElse]
    | none =>
      by_cases h : pr.1 = k
      · subst h
        rw [assocGet_assocSet_self]
        simp [lastAssoc, hl, Option.orElse]
      · rw [assocGet_assocSet_ne t pr.1 k pr.2 h]
        simp [lastAssoc, hl, h, Option.orElse]

theorem lastAssoc_eq_none {α : Type} (rs : List (String × α)) (k : String)
    (h : ∀ pr ∈ rs, pr.1 ≠ k) :
    lastAssoc rs k = none := by
  induction rs with
  | nil => rfl
  | cons pr rs ih =>
    have h1 : lastAssoc rs k = none :=
      ih (fun q hq => h q (List.mem_cons_of_mem _ hq))
    have h2 : pr.1 ≠ k := h pr (List.mem_cons_self _ _)
    simp [lastAssoc, h1, h2]

theorem lastAssoc_of_nodup {α : Type} (rs : List (String × α)) (k : String)
    (v : α) (hnd : (rs.map Prod.fst).Nodup) (hm : (k, v) ∈ rs) :
    lastAssoc rs k = some v := by
  induction rs with
  | nil => cases hm
  | cons pr rs ih =>
    simp only [List.map_cons, List.nodup_cons] at hnd
    obtain ⟨hnotin, hnd'⟩ := hnd
    rw [List.mem_cons] at hm
    rcases hm with hm | hm
    · obtain rfl := hm.symm
      have hnone : lastAssoc rs k = none := by
        apply lastAssoc_eq_none
        intro q hq hqk
        exact hnotin (List.mem_map.2 ⟨q, hq, hqk⟩)
      simp [lastAssoc, hnone]
    · simp [lastAssoc, ih hnd' hm]

theorem beginSite_fold (s : Site) (entries : List (String × Grouping))
    (h : s.configGrouper = some entries) :
    (beginSite s).grouper = some (applyRegs (s.grouper.getD [])
      (entries.map (fun pr => (pr.1, build (pr.2.setName pr.1) none)))) := by
  simp only [beginSite, h]
  rw [applyRegs, List.foldl_map]
  cases s.grouper <;> rfl

/-- C7.  `begin_site` is the identity when the configuration has no `grouper`
attribute; otherwise the site ends up with a registry (created empty only
when absent, otherwise the existing one is the starting point), every
registry key absent from the configuration entries keeps its previous value
(per-key replace, never a reset), and every configured key `k` with
specification `spec` maps to a freshly constructed root
`Group` of `spec` with its `name` set to `k`. -/
theorem begin_site_behavior (s : Site) (entries : List (String × Grouping)) :
    (s.configGrouper = none → beginSite s = s) ∧
    (s.configGrouper = some entries → ∃ t, (beginSite s).grouper = some t) ∧
    (s.configGrouper = some entries →
      ∀ k, (∀ pr ∈ entries, pr.1 ≠ k) →
        assocGet ((beginSite s).grouper.getD []) k =
          assocGet (s.grouper.getD []) k) ∧
    (s.configGrouper = some entries → (entries.map Prod.fst).Nodup →
      ∀ k spec, (k, spec) ∈ entries →
        assocGet ((beginSite s).grouper.getD []) k =
          some (build (spec.setName k) none)) := by
  refine ⟨?_, ?_, ?_, ?_⟩
  · intro h
    simp [beginSite, h]
  · intro h
    exact ⟨_, beginSite_fold s entries h⟩
  · intro h k hk
    rw [beginSite_fold s entries h, Option.getD_some, assocGet_applyRegs]
    have hnone : lastAssoc
        (entries.map (fun pr => (pr.1, build (pr.2.setName pr.1) none))) k = none := by
      apply lastAssoc_eq_none
      intro q hq
      obtain ⟨pr, hpr, rfl⟩ := List.mem_map.1 hq
      exact hk pr hpr
    rw [hnone]
    rfl
  · intro h hnd k spec hm
    rw [beginSite_fold s entries h, Option.getD_some, assocGet_applyRegs]
    have hkeys : ((entries.map (fun pr => (pr.1, build (pr.2.setName pr.1) none))).map
        Prod.fst).Nodup := by
      rw [List.map_map]
      exact hnd
    have hmem : (k, build (spec.setName k) none) ∈
        entries.map (fun pr => (pr.1, build (pr.2.setName pr.1) none)) :=
      List.mem_map.2 ⟨(k, spec), hm, rfl⟩
    rw [lastAssoc_of_nodup _ k _ hkeys hmem]
    rfl

theorem regsList_eq_flatMap (gs : List Group) : regsList gs = gs.flatMap regs := by
  induction gs with
  | nil => rfl
  | cons g gs ih => simp [regsList, ih]

/-- Every group of the walked tree has both of its capability registrations
among the registrations its tree's construction performs. -/
theorem regs_complete : ∀ (g h : Group), h ∈ g.walkGroups →
    ("walk_" ++ h.name ++ "_groups", h) ∈ regs g ∧
    ("walk_resources_grouped_by_" ++ h.name, h) ∈ regs g := by
  intro g
  induction g using Group.groupTreeInduction with
  | h n s r gs ih =>
    intro h hm
    rw [walkGroups_eq_self_cons] at hm
    have hregs : regs (Group.mk n s r gs) = regsList gs ++
        [("walk_" ++ n ++ "_groups", Group.mk n s r gs),
         ("walk_resources_grouped_by_" ++ n, Group.mk n s r gs)] := rfl
    rcases List.mem_cons.1 hm with hm | hm
    · subst hm
      rw [hregs]
      constructor
      · exact List.mem_append_right _ (List.mem_cons_self _ _)
      · exact List.mem_append_right _
          (List.mem_cons_of_mem _ (List.mem_cons_self _ _))
    · obtain ⟨c, hc, hmc⟩ := (mem_walkGroupsList h _).1 hm
      obtain ⟨h1, h2⟩ := ih c hc h hmc
      rw [hregs]
      constructor
      · refine List.mem_append_left _ ?_
        rw [regsList_eq_flatMap]
        exact List.mem_flatMap.2 ⟨c, hc, h1⟩
      · refine List.mem_append_left _ ?_
        rw [regsList_eq_flatMap]
        exact List.mem_flatMap.2 ⟨c, hc, h2⟩

/-- C10.  Constructing a `Group` tree registers the two node capabilities for
every group of the tree, not just the root: each walked group `h` contributes
`walk_<h.name>_groups` and `walk_resources_grouped_by_<h.name>`, bound to `h`
itself as the traversal root (first conjunct); a group's own two
registrations come after all of its children's, since the children register
at their own, earlier constructions (second conjunct, the execution order of
`regs`); and on the shared capability table a later registration under an
equal method name — from any grouping constructed later — silently replaces
the earlier one for all nodes, the lookup after a registration sequence being
the last write of that name (third conjunct). -/
theorem capability_registration (g : Group) (t rs : List (String × Group))
    (k : String) :
    (∀ h ∈ g.walkGroups,
      ("walk_" ++ h.name ++ "_groups", h) ∈ regs g ∧
      ("walk_resources_grouped_by_" ++ h.name, h) ∈ regs g) ∧
    (regs g = regsList g.groups ++
      [("walk_" ++ g.name ++ "_groups", g),
       ("walk_resources_grouped_by_" ++ g.name, g)]) ∧
    (assocGet (applyRegs t rs) k =
      (lastAssoc rs k).orElse (fun _ => assocGet t k)) := by
  refine ⟨fun h hm => regs_complete g h hm, ?_, assocGet_applyRegs rs t k⟩
  cases g
  rfl

/-! ## Concrete witnesses -/

/-- A `hyde`-style grouping with a root sorter and one child group without
one. -/
def hydeSpec : Grouping :=
  .mk (some "hyde") (some "kind") [.mk (some "announcements") none []]

/-- A resource tagged `meta.hyde = "announcements"`. -/
def hydeResource : Resource := ⟨3, [("hyde", "announcements")]⟩

/-- A node exposing a `walk_resources_sorted_by_kind` capability. -/
def sortedNode : Node := ⟨[hydeResource], [("kind", [hydeResource])]⟩

/-- The constructed child group of `hydeSpec`: name `announcements`,
inherited sorter `kind`, root name `hyde`. -/
def announcementsGroup : Group := Group.mk "announcements" (some "kind") "hyde" []

/-- A site whose configuration holds the `hyde` grouping and whose registry
already holds an unrelated entry under the key `old`. -/
def siteW : Site :=
  ⟨some [("hyde", hydeSpec)], some [("old", Group.mk "old" none "old" [])]⟩

/-- Witness for C4 at the `topics` tree: the walk's second element is the
group `a` at position `[0]`, a genuine tree position. -/
theorem walk_groups_preorder_witness :
    nodeAt topicsRoot [0] = some (Group.mk "a" none "topics" []) :=
  (walk_groups_preorder topicsRoot topicsSpec none).2.2.1
    ([0], Group.mk "a" none "topics" [])
    (List.mem_cons_of_mem _ (List.mem_cons_self _ _))

/-- Witness for C5: the child of `hydeSpec`, which specifies no sorter,
resolves to the root's sorter `kind` — the nearest sorter of its chain. -/
theorem sorter_resolution_witness :
    announcementsGroup.sorter =
      nearestSorter [hydeSpec, Grouping.mk (some "announcements") none []] :=
  sorter_resolution hydeSpec [0] announcementsGroup
    [hydeSpec, Grouping.mk (some "announcements") none []] rfl rfl

/-- Witness for C6: a group with resolved sorter `kind` traverses the node's
`walk_resources_sorted_by_kind` capability, and a group with no sorter
traverses the generic `walk_resources`. -/
theorem walker_selection_witness :
    announcementsGroup.walker sortedNode = [hydeResource] ∧
    (Group.mk "x" none "hyde" []).walker sortedNode = sortedNode.resources := by
  constructor
  · exact (walker_selection announcementsGroup sortedNode "kind").2.1
      [hydeResource] rfl (by decide) rfl
  · exact (walker_selection (Group.mk "x" none "hyde" []) sortedNode "kind").2.2.2.1 rfl

/-- Witness for C7: running `begin_site` on `siteW` leaves the unrelated
registry key `old` unchanged and stores the freshly built root group under
the configured key `hyde`. -/
theorem begin_site_behavior_witness :
    assocGet ((beginSite siteW).grouper.getD []) "old" =
      assocGet (siteW.grouper.getD []) "old" ∧
    assocGet ((beginSite siteW).grouper.getD []) "hyde" =
      some (build (hydeSpec.setName "hyde") none) := by
  constructor
  · exact (begin_site_behavior siteW [("hyde", hydeSpec)]).2.2.1 rfl "old"
      (by decide)
  · exact (begin_site_behavior siteW [("hyde", hydeSpec)]).2.2.2 rfl
      (by simp) "hyde" hydeSpec (List.mem_cons_self _ _)

/-- Witness for C9: in the built `hyde` tree, the child at position `[0]`
reads root name `hyde` for matching, and its parent — holding it in its
`groups` list — is the root at position `[]`. -/
theorem parent_root_invariant_witness :
    announcementsGroup.rootName = (build hydeSpec none).name ∧
    ∃ hp, nodeAt (build hydeSpec none) [] = some hp ∧
      hp.groups[0]? = some announcementsGroup ∧
      announcementsGroup ∈ hp.groups :=
  ⟨(parent_root_invariant hydeSpec [0] 0).2.1 announcementsGroup rfl,
   (parent_root_invariant hydeSpec [] 0).2.2.1 announcementsGroup rfl⟩

/-- Witness for C10: the child group `a` of the `topics` tree has both of its
capability registrations among the tree's registrations. -/
theorem capability_registration_witness :
    ("walk_" ++ (Group.mk "a" none "topics" []).name ++ "_groups",
      Group.mk "a" none "topics" []) ∈ regs topicsRoot ∧
    ("walk_resources_grouped_by_" ++ (Group.mk "a" none "topics" []).name,
      Group.mk "a" none "topics" []) ∈ regs topicsRoot :=
  (capability_registration topicsRoot [] [] "x").1 (Group.mk "a" none "topics" [])
    (List.mem_cons_of_mem _ (List.mem_cons_self _ _))

end Grouper
